import Mathlib

/-!
# Verification of the tau-asymmetry imaging analysis pipeline

Shallow embedding of the analysis scripts of the repository
`teanijarv/phd-neurodegeneration-imaging`:

* the SILA driver script (MATLAB): data loading (column selection,
  `rmmissing`, subject denylist) and the calls `SILA` / `SILA_estimate`;
* the NBS driver script (MATLAB): design-matrix construction, the
  `NBSrun` invocation and the result extraction through `global nbs`.

The vendored third-party algorithms (SILA, NBS) are not part of the
repository sources available here; where a claim depends on their
behaviour, the corresponding definition is modelled from the spec and
marked as such in its doc comment.  Real numbers of the scripts are
embedded as rationals.
-/

namespace TauAsym

/-! ## Data model: the SILA input table (driver script, data loading) -/

/-- A row of the raw input table `t_all` as read from the CSV: the three
columns the script keeps (`sid`, `age`, the chosen ROI value column),
each possibly missing, plus the remaining columns of the table. -/
structure RawRow where
  sid : Option Int
  age : Option ℚ
  roi : Option ℚ
  other : List (Option ℚ)
  deriving Repr, DecidableEq

/-- A row of the cleaned table `t`: `t.Properties.VariableNames =
["subid","age","val"]` after column selection and `rmmissing`. -/
structure Row where
  subid : Int
  age : ℚ
  val : ℚ
  deriving Repr, DecidableEq

/-- Column selection `t = t_all(:,{'sid' 'age' ROI})`: each row keeps
exactly the subject id, age and biomarker value entries. -/
def selectCols (t_all : List RawRow) : List (Option Int × Option ℚ × Option ℚ) :=
  t_all.map (fun r => (r.sid, r.age, r.roi))

/-- `t = rmmissing(t)`: rows with a missing entry in any kept column are
dropped; complete rows become `Row` values. -/
def rmmissing (t : List (Option Int × Option ℚ × Option ℚ)) : List Row :=
  t.filterMap (fun r =>
    match r with
    | (some s, some a, some v) => some ⟨s, a, v⟩
    | _ => none)

/-- The fixed subject denylist of the driver script: `[2204 2485]`. -/
def denylist : List Int := [2204, 2485]

/-- `toDelete = ismember(t.subid,[2204 2485]); t(toDelete,:) = []`:
rows whose subject id is in the denylist are removed. -/
def dropDenylisted (t : List Row) : List Row :=
  t.filter (fun r => decide (r.subid ∉ denylist))

/-- The data-loading phase of the driver script: column selection, then
`rmmissing`, then the denylist removal, in the script's order. -/
def loadTable (t_all : List RawRow) : List Row :=
  dropDenylisted (rmmissing (selectCols t_all))

/-- Row-wise characterisation of the loader: a raw row survives exactly
when its three kept entries are present and its subject id is not
denylisted, and then it is kept unchanged. -/
def loadRow (r : RawRow) : Option Row :=
  match r.sid, r.age, r.roi with
  | some s, some a, some v =>
      if s ∉ denylist then some ⟨s, a, v⟩ else none
  | _, _, _ => none

theorem loadTable_eq_filterMap (t_all : List RawRow) :
    loadTable t_all = t_all.filterMap loadRow := by
  induction t_all with
  | nil => rfl
  | cons r rest ih =>
      simp only [loadTable, selectCols, rmmissing, dropDenylisted,
        List.filterMap_map, decide_not] at ih ⊢
      simp only [List.map_cons, List.filterMap_cons, Function.comp]
      rcases hs : r.sid with _ | s
      · simpa [loadRow, hs] using ih
      rcases ha : r.age with _ | a
      · simpa [loadRow, hs, ha] using ih
      rcases hv : r.roi with _ | v
      · simpa [loadRow, hs, ha, hv] using ih
      by_cases hdl : s ∈ denylist
      · simp [loadRow, hs, ha, hv, hdl, List.filter_cons, ih]
      · simp [loadRow, hs, ha, hv, hdl, List.filter_cons, ih]

end TauAsym

namespace TauAsym

/-! ## C8 theorem: the data loader -/

/-- **C8.** The data loader keeps exactly the (subject id, age, value)
columns, drops every row with a missing kept entry, removes exactly the
denylisted subjects' rows, and leaves surviving rows unchanged and in
order: the three-stage loader equals the single row-wise filter, every
complete non-denylisted row survives with its fields unchanged, and
every output row is the image of an input row. -/
theorem C8_loader_keeps_exactly_complete_nondenylisted_rows
    (t_all : List RawRow) :
    loadTable t_all = t_all.filterMap loadRow ∧
    (∀ r ∈ t_all, ∀ s a v, r.sid = some s → r.age = some a → r.roi = some v →
      s ∉ denylist → (⟨s, a, v⟩ : Row) ∈ loadTable t_all) ∧
    (∀ x ∈ loadTable t_all, ∃ r ∈ t_all,
      r.sid = some x.subid ∧ r.age = some x.age ∧ r.roi = some x.val ∧
      x.subid ∉ denylist) := by
  refine ⟨loadTable_eq_filterMap t_all, ?_, ?_⟩
  · intro r hr s a v hs ha hv hdl
    rw [loadTable_eq_filterMap]
    exact List.mem_filterMap.mpr ⟨r, hr, by simp [loadRow, hs, ha, hv, hdl]⟩
  · intro x hx
    rw [loadTable_eq_filterMap] at hx
    rcases List.mem_filterMap.mp hx with ⟨r, hr, hload⟩
    refine ⟨r, hr, ?_⟩
    unfold loadRow at hload
    rcases hs : r.sid with _ | s <;> rw [hs] at hload
    · exact absurd hload (by simp)
    rcases ha : r.age with _ | a <;> rw [ha] at hload
    · exact absurd hload (by simp)
    rcases hv : r.roi with _ | v <;> rw [hv] at hload
    · exact absurd hload (by simp)
    by_cases hdl : s ∈ denylist
    · simp [hdl] at hload
    · simp only [hdl, not_false_iff, if_true, Option.some_inj] at hload
      subst hload
      exact ⟨rfl, rfl, rfl, hdl⟩

end TauAsym

namespace TauAsym

/-! ## The NBS driver script: stacked correlation matrices and design matrix -/

/-- `corr = cat(3, corr_1, corr_2)`: the two groups' correlation-matrix
stacks are concatenated along the third dimension, group 1 first. -/
def corrStack {α : Type} (c1 c2 : List α) : List α := c1 ++ c2

/-- `design_mat = zeros(n1+n2, 2); design_mat(1:n1,1) = 1;
design_mat(n1+1:end,2) = 1`: the two group-indicator columns. -/
def groupIndicator (n1 n2 : ℕ) : List (List ℚ) :=
  List.replicate n1 [1, 0] ++ List.replicate n2 [0, 1]

/-- `design_mat = [design_mat, covars]`: the covariate columns are
appended row-wise to the design matrix. -/
def appendCovars (d cov : List (List ℚ)) : List (List ℚ) :=
  d.zipWith (· ++ ·) cov

/-- The design-matrix construction of the NBS driver script:
group-indicator columns, then (`use_covars`) the covariates of the two
groups stacked group 1 first and appended column-wise. -/
def design_mat (n1 n2 : ℕ) (use_covars : Bool) (cov1 cov2 : List (List ℚ)) :
    List (List ℚ) :=
  if use_covars then appendCovars (groupIndicator n1 n2) (cov1 ++ cov2)
  else groupIndicator n1 n2

theorem groupIndicator_length (n1 n2 : ℕ) :
    (groupIndicator n1 n2).length = n1 + n2 := by
  simp [groupIndicator]

theorem groupIndicator_rows_length (n1 n2 : ℕ) :
    ∀ r ∈ groupIndicator n1 n2, r.length = 2 := by
  intro r hr
  rcases List.mem_append.mp hr with h | h <;>
    · simp [List.eq_of_mem_replicate h]

theorem appendCovars_map_take (d cov : List (List ℚ))
    (hd : ∀ r ∈ d, r.length = 2) (hlen : d.length ≤ cov.length) :
    (appendCovars d cov).map (fun r => r.take 2) = d := by
  induction d generalizing cov with
  | nil => rfl
  | cons r rs ih =>
      cases cov with
      | nil => simp at hlen
      | cons c cs =>
          have hr : r.length = 2 := hd r (List.mem_cons_self r rs)
          simp only [appendCovars, List.zipWith_cons_cons, List.map_cons]
          rw [← hr, List.take_left, hr]
          congr 1
          exact ih cs (fun x hx => hd x (List.mem_cons_of_mem r hx))
            (by simpa using Nat.le_of_succ_le_succ (by simpa using hlen))

theorem appendCovars_map_drop (d cov : List (List ℚ))
    (hd : ∀ r ∈ d, r.length = 2) (hlen : d.length = cov.length) :
    (appendCovars d cov).map (fun r => r.drop 2) = cov := by
  induction d generalizing cov with
  | nil => cases cov with
      | nil => rfl
      | cons c cs => simp at hlen
  | cons r rs ih =>
      cases cov with
      | nil => simp at hlen
      | cons c cs =>
          have hr : r.length = 2 := hd r (List.mem_cons_self r rs)
          simp only [appendCovars, List.zipWith_cons_cons, List.map_cons]
          rw [← hr, List.drop_left, hr]
          congr 1
          exact ih cs (fun x hx => hd x (List.mem_cons_of_mem r hx))
            (by simpa using hlen)

/-- **C10.** The design matrix has exactly `len_group_1 + len_group_2`
rows, equal to the number of stacked correlation-matrix slices; taking
the first two columns of each row recovers the two group-indicator
blocks `[1,0]` (first `len_group_1` rows) and `[0,1]` (the rest), and
the remaining columns are the covariates stacked in the same
group-1-then-group-2 row order, so every design-matrix row stays
aligned with its correlation-matrix slice. -/
theorem C10_design_matrix_shape {α : Type} (c1 c2 : List α)
    (cov1 cov2 : List (List ℚ))
    (h1 : cov1.length = c1.length) (h2 : cov2.length = c2.length) :
    (design_mat c1.length c2.length true cov1 cov2).length
        = c1.length + c2.length ∧
    (corrStack c1 c2).length = c1.length + c2.length ∧
    (design_mat c1.length c2.length true cov1 cov2).map (fun r => r.take 2)
        = List.replicate c1.length [1, 0] ++ List.replicate c2.length [0, 1] ∧
    (design_mat c1.length c2.length true cov1 cov2).map (fun r => r.drop 2)
        = cov1 ++ cov2 := by
  have hdlen : (groupIndicator c1.length c2.length).length
      = (cov1 ++ cov2).length := by
    simp [groupIndicator_length, h1, h2, Nat.add_comm]
  refine ⟨?_, ?_, ?_, ?_⟩
  · simp only [design_mat, if_true, appendCovars]
    rw [List.length_zipWith, hdlen, min_self, List.length_append, h1, h2]
  · simp [corrStack]
  · simp only [design_mat, if_true]
    rw [appendCovars_map_take _ _ (groupIndicator_rows_length _ _) hdlen.le]
    rfl
  · simp only [design_mat, if_true]
    exact appendCovars_map_drop _ _ (groupIndicator_rows_length _ _) hdlen

/-- Concrete instantiation of the design-matrix theorem: one slice in
group 1, two slices in group 2, one covariate column. -/
theorem C10_design_matrix_shape_witness :
    (design_mat [7].length [8, 9].length true [[(3 : ℚ)]] [[4], [5]]).length
        = [7].length + [8, 9].length ∧
    (corrStack [7] [8, 9]).length = [7].length + [8, 9].length ∧
    (design_mat [7].length [8, 9].length true [[(3 : ℚ)]] [[4], [5]]).map
        (fun r => r.take 2)
        = List.replicate [7].length [1, 0]
            ++ List.replicate [8, 9].length [0, 1] ∧
    (design_mat [7].length [8, 9].length true [[(3 : ℚ)]] [[4], [5]]).map
        (fun r => r.drop 2)
        = [[(3 : ℚ)]] ++ [[4], [5]] :=
  C10_design_matrix_shape ([7] : List ℕ) [8, 9] [[3]] [[4], [5]] rfl rfl

end TauAsym

namespace TauAsym

/-! ## The NBS invocation and result extraction -/

/-- The result structure of the permutation-testing toolbox as used by
the driver script: number of significant components, p-values,
adjacency (connection) matrices and test-statistic matrix. -/
structure NBSResult where
  n : ℕ
  pval : List ℚ
  con_mat : List (List Bool)
  test_stat : List (List ℚ)
  deriving Repr, DecidableEq

/-- The ambient MATLAB global workspace relevant to the script: the
shared global variable `nbs` holding the toolbox's results object. -/
structure GlobalState where
  nbs : Option NBSResult
  deriving Repr, DecidableEq

/-- Modelled from the spec: the vendored toolbox's `NBSrun` (its source
is not part of the repository) stores its results object in the shared
global variable `nbs`; the statistics computation itself is an opaque
solver, so the computed result is a parameter.  The first component is
the value the invocation passes back directly to the caller: the driver
script calls `NBSrun(UI,[])` as a bare statement, capturing nothing, so
no result structure is returned directly. -/
def NBSrun (result : NBSResult) (g : GlobalState) :
    Option NBSResult × GlobalState :=
  (none, { g with nbs := some result })

/-- What the driver script extracts after the run (`global nbs;
n_components = nbs.NBS.n; adj_mat = nbs.NBS.con_mat; pval =
nbs.NBS.pval; t_stat_mat = nbs.NBS.test_stat`): read from the global
workspace, not from any value returned by `NBSrun`. -/
def extractResults (g : GlobalState) :
    Option (ℕ × List ℚ × List (List Bool) × List (List ℚ)) :=
  g.nbs.map (fun r => (r.n, r.pval, r.con_mat, r.test_stat))

/-- The NBS phase of the driver script: invoke the toolbox, discard the
invocation's direct value, and extract the results from the global
workspace. -/
def runNBSanalysis (result : NBSResult) (g0 : GlobalState) :
    Option (ℕ × List ℚ × List (List Bool) × List (List ℚ)) :=
  let invocation := NBSrun result g0
  extractResults invocation.2

/-- A concrete toolbox result used to exhibit the communication channel:
one significant component, p-value 1/20, a 1×1 adjacency and
test-statistic matrix. -/
def sampleResult : NBSResult :=
  { n := 1, pval := [1 / 20], con_mat := [[true]], test_stat := [[3]] }

/-- **C9 counterexample.** At the concrete input `sampleResult` with an
empty initial global workspace, the invocation's explicit return value
carries no result structure (it is `none`, so in particular not the
result), while the caller's extracted results are exactly the contents
of the shared global variable `nbs`: the results are communicated
through ambient global state, not through a return value. -/
theorem C9_results_via_global_counterexample :
    (NBSrun sampleResult { nbs := none }).1 ≠ some sampleResult ∧
    (NBSrun sampleResult { nbs := none }).1 = none ∧
    (NBSrun sampleResult { nbs := none }).2.nbs = some sampleResult ∧
    runNBSanalysis sampleResult { nbs := none }
      = extractResults (NBSrun sampleResult { nbs := none }).2 ∧
    runNBSanalysis sampleResult { nbs := none }
      = some (1, [1 / 20], [[true]], [[3]]) := by
  refine ⟨by simp [NBSrun], rfl, rfl, rfl, rfl⟩

/-- **C9 amended.** For every toolbox result and initial global
workspace, the invocation passes nothing back as a direct return value;
the result structure (component count, p-values, adjacency matrix, test
statistics) is communicated to the caller through the shared global
variable `nbs`, from which the driver script extracts it after the
invocation. -/
theorem C9_results_communicated_through_global (result : NBSResult)
    (g0 : GlobalState) :
    (NBSrun result g0).1 = none ∧
    (NBSrun result g0).2.nbs = some result ∧
    runNBSanalysis result g0
      = some (result.n, result.pval, result.con_mat, result.test_stat) :=
  ⟨rfl, rfl, rfl⟩

end TauAsym

namespace TauAsym

/-! ## The SILA curve integrator

The vendored SILA implementation (`SILA.m`) is not part of the
repository sources; the integrator below is modelled from the spec. -/

/-- A point of the smoothed discrete-rate-sampling curve: a biomarker
value and the estimated rate of change (Δvalue per year) there. -/
structure RatePoint where
  val : ℚ
  rate : ℚ
  deriving Repr, DecidableEq

/-- Whether two rates are strictly on the same side of zero; a zero
rate is on neither side. -/
def sameSign (a b : ℚ) : Bool :=
  (decide (0 < a) && decide (0 < b)) || (decide (a < 0) && decide (b < 0))

/-- Trapezoidal time increment for one value-step: the integral of
`1/rate` over `[p.val, q.val]` approximated by the trapezoid rule. -/
def stepTime (p q : RatePoint) : ℚ :=
  (q.val - p.val) * (1 / p.rate + 1 / q.rate) / 2

/-- Modelled from the spec: accumulate elapsed time per value-step by
trapezoidal integration of `1/rate`, starting from time `t` at rate
point `p` and walking the given rate points outward; at a zero rate or
a rate sign change, integration truncates there and the offending
value is reported as the domain error (second component). -/
def integrateFrom (t : ℚ) (p : RatePoint) :
    List RatePoint → List (ℚ × ℚ) × Option ℚ
  | [] => ([], none)
  | q :: rest =>
      if sameSign p.rate q.rate then
        let t' := t + stepTime p q
        let r := integrateFrom t' q rest
        ((t', q.val) :: r.1, r.2)
      else ([], some q.val)

/-- Modelled from the spec: the canonical value-vs-time trajectory
(`tsila.adtime`, `tsila.val`).  From the threshold rate point `p0`
(whose value is the configured threshold), integrate outward in both
directions — `below` lists the rate points below the threshold going
downward, `above` those above it going upward — starting at time `0`
exactly at the threshold value. -/
def SILA (p0 : RatePoint) (below above : List RatePoint) : List (ℚ × ℚ) :=
  ((integrateFrom 0 p0 below).1).reverse
    ++ (0, p0.val) :: (integrateFrom 0 p0 above).1

/-- The domain-error reports of the two integration directions. -/
def SILAtruncations (p0 : RatePoint) (below above : List RatePoint) :
    Option ℚ × Option ℚ :=
  ((integrateFrom 0 p0 below).2, (integrateFrom 0 p0 above).2)

/-- **C3.** If the rate curve has a first point `q` whose rate is zero
or of changed sign relative to the same-signed prefix before it,
integration truncates exactly there: the trajectory piece covers
exactly the values of the prefix before `q` (so it is never
extrapolated to `q` or past it) and the truncated value `q.val` is
reported as the domain error. -/
theorem C3_truncation_at_zero_or_sign_change
    (t : ℚ) (p0 : RatePoint) (good : List RatePoint) (q : RatePoint)
    (rest : List RatePoint)
    (hgood : List.Chain (fun a b => sameSign a.rate b.rate = true) p0 good)
    (hbad : sameSign ((p0 :: good).getLast (by simp)).rate q.rate = false) :
    (integrateFrom t p0 (good ++ q :: rest)).2 = some q.val ∧
    (integrateFrom t p0 (good ++ q :: rest)).1.map Prod.snd
      = good.map RatePoint.val := by
  induction good generalizing p0 t with
  | nil =>
      simp only [List.getLast_singleton] at hbad
      simp [integrateFrom, hbad]
  | cons g gs ih =>
      rcases hgood with _ | ⟨hpg, hchain⟩
      have hlast : ((p0 :: g :: gs).getLast (by simp))
          = ((g :: gs).getLast (by simp)) := List.getLast_cons _
      rw [hlast] at hbad
      have := ih (t + stepTime p0 g) g hchain hbad
      simp only [List.cons_append, integrateFrom, hpg, if_true]
      exact ⟨this.1, by simpa using this.2⟩

/-- Concrete instantiation of the truncation theorem: a positive-rate
prefix followed by a zero-rate point at value 3; integration reports 3
and stops after value 2. -/
theorem C3_truncation_witness :
    (integrateFrom 0 ⟨1, 1⟩ ([⟨2, 1⟩] ++ ⟨3, 0⟩ :: [⟨4, 1⟩])).2 = some 3 ∧
    (integrateFrom 0 ⟨1, 1⟩ ([⟨2, 1⟩] ++ ⟨3, 0⟩ :: [⟨4, 1⟩])).1.map Prod.snd
      = [⟨2, 1⟩].map RatePoint.val :=
  C3_truncation_at_zero_or_sign_change 0 ⟨1, 1⟩ [⟨2, 1⟩] ⟨3, 0⟩ [⟨4, 1⟩]
    (List.Chain.cons (by decide) List.Chain.nil) (by decide)

end TauAsym

namespace TauAsym

/-! ## Monotonicity of the integrated trajectory -/

theorem sameSign_pos {a b : ℚ} (h : sameSign a b = true) (ha : 0 < a) :
    0 < b := by
  simp only [sameSign, Bool.or_eq_true, Bool.and_eq_true, decide_eq_true_eq] at h
  rcases h with ⟨_, h⟩ | ⟨h, _⟩
  · exact h
  · exact absurd h (not_lt.mpr ha.le)

theorem sameSign_neg {a b : ℚ} (h : sameSign a b = true) (ha : a < 0) :
    b < 0 := by
  simp only [sameSign, Bool.or_eq_true, Bool.and_eq_true, decide_eq_true_eq] at h
  rcases h with ⟨h, _⟩ | ⟨_, h⟩
  · exact absurd h (not_lt.mpr ha.le)
  · exact h

theorem stepTime_pos_asc {p q : RatePoint} (hp : 0 < p.rate)
    (hq : 0 < q.rate) (hv : p.val < q.val) : 0 < stepTime p q := by
  have h1 : 0 < q.val - p.val := sub_pos.mpr hv
  have h2 : 0 < 1 / p.rate + 1 / q.rate :=
    add_pos (one_div_pos.mpr hp) (one_div_pos.mpr hq)
  exact div_pos (mul_pos h1 h2) two_pos

theorem stepTime_neg_desc {p q : RatePoint} (hp : 0 < p.rate)
    (hq : 0 < q.rate) (hv : q.val < p.val) : stepTime p q < 0 := by
  have h1 : q.val - p.val < 0 := sub_neg.mpr hv
  have h2 : 0 < 1 / p.rate + 1 / q.rate :=
    add_pos (one_div_pos.mpr hp) (one_div_pos.mpr hq)
  exact div_neg_of_neg_of_pos (mul_neg_of_neg_of_pos h1 h2) two_pos

theorem stepTime_neg_asc {p q : RatePoint} (hp : p.rate < 0)
    (hq : q.rate < 0) (hv : p.val < q.val) : stepTime p q < 0 := by
  have h1 : 0 < q.val - p.val := sub_pos.mpr hv
  have h2 : 1 / p.rate + 1 / q.rate < 0 := by
    have := one_div_neg.mpr hp
    have := one_div_neg.mpr hq
    linarith
  exact div_neg_of_neg_of_pos (mul_neg_of_pos_of_neg h1 h2) two_pos

theorem stepTime_pos_desc {p q : RatePoint} (hp : p.rate < 0)
    (hq : q.rate < 0) (hv : q.val < p.val) : 0 < stepTime p q := by
  have h1 : q.val - p.val < 0 := sub_neg.mpr hv
  have h2 : 1 / p.rate + 1 / q.rate < 0 := by
    have := one_div_neg.mpr hp
    have := one_div_neg.mpr hq
    linarith
  exact div_pos (mul_pos_of_neg_of_neg h1 h2) two_pos

theorem chain_integrate_asc_pos (l : List RatePoint) :
    ∀ (p : RatePoint) (t : ℚ), 0 < p.rate →
    List.Chain (fun a b => a.val < b.val) p l →
    List.Chain' (fun a b : ℚ × ℚ => a.1 < b.1 ∧ a.2 < b.2)
      ((t, p.val) :: (integrateFrom t p l).1) := by
  induction l with
  | nil => intro p t _ _; simp [integrateFrom]
  | cons q rest ih =>
      intro p t hp hc
      rcases hc with _ | ⟨hv, hc⟩
      by_cases hs : sameSign p.rate q.rate = true
      · have hq : 0 < q.rate := sameSign_pos hs hp
        simp only [integrateFrom, hs, if_true]
        exact List.Chain'.cons
          ⟨by show t < t + stepTime p q
              have := stepTime_pos_asc hp hq hv; linarith, hv⟩
          (ih q (t + stepTime p q) hq hc)
      · simp [integrateFrom, hs]

theorem chain_integrate_desc_pos (l : List RatePoint) :
    ∀ (p : RatePoint) (t : ℚ), 0 < p.rate →
    List.Chain (fun a b => b.val < a.val) p l →
    List.Chain' (fun a b : ℚ × ℚ => b.1 < a.1 ∧ b.2 < a.2)
      ((t, p.val) :: (integrateFrom t p l).1) := by
  induction l with
  | nil => intro p t _ _; simp [integrateFrom]
  | cons q rest ih =>
      intro p t hp hc
      rcases hc with _ | ⟨hv, hc⟩
      by_cases hs : sameSign p.rate q.rate = true
      · have hq : 0 < q.rate := sameSign_pos hs hp
        simp only [integrateFrom, hs, if_true]
        exact List.Chain'.cons
          ⟨by show t + stepTime p q < t
              have := stepTime_neg_desc hp hq hv; linarith, hv⟩
          (ih q (t + stepTime p q) hq hc)
      · simp [integrateFrom, hs]

theorem chain_integrate_asc_neg (l : List RatePoint) :
    ∀ (p : RatePoint) (t : ℚ), p.rate < 0 →
    List.Chain (fun a b => a.val < b.val) p l →
    List.Chain' (fun a b : ℚ × ℚ => b.1 < a.1 ∧ a.2 < b.2)
      ((t, p.val) :: (integrateFrom t p l).1) := by
  induction l with
  | nil => intro p t _ _; simp [integrateFrom]
  | cons q rest ih =>
      intro p t hp hc
      rcases hc with _ | ⟨hv, hc⟩
      by_cases hs : sameSign p.rate q.rate = true
      · have hq : q.rate < 0 := sameSign_neg hs hp
        simp only [integrateFrom, hs, if_true]
        exact List.Chain'.cons
          ⟨by show t + stepTime p q < t
              have := stepTime_neg_asc hp hq hv; linarith, hv⟩
          (ih q (t + stepTime p q) hq hc)
      · simp [integrateFrom, hs]

theorem chain_integrate_desc_neg (l : List RatePoint) :
    ∀ (p : RatePoint) (t : ℚ), p.rate < 0 →
    List.Chain (fun a b => b.val < a.val) p l →
    List.Chain' (fun a b : ℚ × ℚ => a.1 < b.1 ∧ b.2 < a.2)
      ((t, p.val) :: (integrateFrom t p l).1) := by
  induction l with
  | nil => intro p t _ _; simp [integrateFrom]
  | cons q rest ih =>
      intro p t hp hc
      rcases hc with _ | ⟨hv, hc⟩
      by_cases hs : sameSign p.rate q.rate = true
      · have hq : q.rate < 0 := sameSign_neg hs hp
        simp only [integrateFrom, hs, if_true]
        exact List.Chain'.cons
          ⟨by show t < t + stepTime p q
              have := stepTime_pos_desc hp hq hv; linarith, hv⟩
          (ih q (t + stepTime p q) hq hc)
      · simp [integrateFrom, hs]

end TauAsym

namespace TauAsym

/-! ## C1 and C2: threshold anchoring and monotonicity -/

/-- The trajectory's value at a given time: the value of the trajectory
entry whose time coordinate is `t`. -/
def valueAtTime (traj : List (ℚ × ℚ)) (t : ℚ) : Option ℚ :=
  (traj.find? (fun x => decide (x.1 = t))).map Prod.snd

theorem mem_of_chain'_cons_trans {α : Type} {R : α → α → Prop}
    (htrans : ∀ a b c, R a b → R b c → R a c)
    {a : α} {l : List α} (h : List.Chain' R (a :: l)) :
    ∀ x ∈ l, R a x := by
  have hpw : List.Pairwise R (a :: l) := by
    haveI : IsTrans α R := ⟨htrans⟩
    exact List.chain'_iff_pairwise.mp h
  exact (List.pairwise_cons.mp hpw).1

/-- **C1.** For every run whose rate at the configured threshold is
nonzero and whose rate-curve grids move strictly away from the
threshold value in both directions, the canonical trajectory's value at
time-from-threshold 0 is exactly the configured threshold value, and no
other trajectory entry sits at time 0. -/
theorem C1_threshold_anchoring (p0 : RatePoint) (below above : List RatePoint)
    (hp : p0.rate ≠ 0)
    (hb : List.Chain (fun a b => b.val < a.val) p0 below)
    (ha : List.Chain (fun a b => a.val < b.val) p0 above) :
    valueAtTime (SILA p0 below above) 0 = some p0.val ∧
    ∀ x ∈ SILA p0 below above, x.1 = 0 → x.2 = p0.val := by
  have hbel : ∀ x ∈ (integrateFrom 0 p0 below).1, x.1 ≠ 0 := by
    rcases hp.lt_or_lt with hneg | hpos
    · have hch := chain_integrate_desc_neg below p0 0 hneg hb
      have hmem := mem_of_chain'_cons_trans
        (R := fun a b : ℚ × ℚ => a.1 < b.1 ∧ b.2 < a.2)
        (fun a b c h1 h2 => ⟨lt_trans h1.1 h2.1, lt_trans h2.2 h1.2⟩) hch
      intro x hx
      exact ne_of_gt (by simpa using (hmem x hx).1)
    · have hch := chain_integrate_desc_pos below p0 0 hpos hb
      have hmem := mem_of_chain'_cons_trans
        (R := fun a b : ℚ × ℚ => b.1 < a.1 ∧ b.2 < a.2)
        (fun a b c h1 h2 => ⟨lt_trans h2.1 h1.1, lt_trans h2.2 h1.2⟩) hch
      intro x hx
      exact ne_of_lt (by simpa using (hmem x hx).1)
  have habv : ∀ x ∈ (integrateFrom 0 p0 above).1, x.1 ≠ 0 := by
    rcases hp.lt_or_lt with hneg | hpos
    · have hch := chain_integrate_asc_neg above p0 0 hneg ha
      have hmem := mem_of_chain'_cons_trans
        (R := fun a b : ℚ × ℚ => b.1 < a.1 ∧ a.2 < b.2)
        (fun a b c h1 h2 => ⟨lt_trans h2.1 h1.1, lt_trans h1.2 h2.2⟩) hch
      intro x hx
      exact ne_of_lt (by simpa using (hmem x hx).1)
    · have hch := chain_integrate_asc_pos above p0 0 hpos ha
      have hmem := mem_of_chain'_cons_trans
        (R := fun a b : ℚ × ℚ => a.1 < b.1 ∧ a.2 < b.2)
        (fun a b c h1 h2 => ⟨lt_trans h1.1 h2.1, lt_trans h1.2 h2.2⟩) hch
      intro x hx
      exact ne_of_gt (by simpa using (hmem x hx).1)
  constructor
  · unfold valueAtTime SILA
    rw [List.find?_append]
    have h1 : ((integrateFrom 0 p0 below).1.reverse.find?
        (fun x => decide (x.1 = 0))) = none := by
      rw [List.find?_eq_none]
      intro x hx
      simp only [decide_eq_true_eq]
      exact hbel x (List.mem_reverse.mp hx)
    rw [h1]
    simp
  · intro x hx ht
    unfold SILA at hx
    rcases List.mem_append.mp hx with hxb | hxa
    · exact absurd ht (hbel x (List.mem_reverse.mp hxb))
    · rcases List.mem_cons.mp hxa with rfl | hxa'
      · rfl
      · exact absurd ht (habv x hxa')

/-- Concrete instantiation of the anchoring theorem: threshold value 1,
constant rate 1, one grid point on each side. -/
theorem C1_threshold_anchoring_witness :
    valueAtTime (SILA ⟨1, 1⟩ [⟨0, 1⟩] [⟨2, 1⟩]) 0 = some (1 : ℚ) ∧
    ∀ x ∈ SILA ⟨1, 1⟩ [⟨0, 1⟩] [⟨2, 1⟩], x.1 = 0 → x.2 = (1 : ℚ) :=
  C1_threshold_anchoring ⟨1, 1⟩ [⟨0, 1⟩] [⟨2, 1⟩] (by norm_num)
    (List.Chain.cons (by norm_num) List.Chain.nil)
    (List.Chain.cons (by norm_num) List.Chain.nil)

/-- **C2.** The canonical trajectory is monotonic: when the rates are
positive (biomarker increasing with time), both the time and the value
coordinates strictly increase along the trajectory; when the rates are
negative, the value still strictly increases along the list while time
strictly decreases, i.e. value is monotonically non-increasing with
time.  In either direction the values are pairwise distinct, so the
trajectory is invertible as a value-to-time lookup table. -/
theorem C2_trajectory_monotonic (p0 : RatePoint) (below above : List RatePoint)
    (hb : List.Chain (fun a b => b.val < a.val) p0 below)
    (ha : List.Chain (fun a b => a.val < b.val) p0 above) :
    (0 < p0.rate →
      List.Chain' (fun a b : ℚ × ℚ => a.1 < b.1 ∧ a.2 < b.2)
        (SILA p0 below above)) ∧
    (p0.rate < 0 →
      List.Chain' (fun a b : ℚ × ℚ => b.1 < a.1 ∧ a.2 < b.2)
        (SILA p0 below above)) ∧
    (p0.rate ≠ 0 →
      (SILA p0 below above).Pairwise (fun a b => a.2 ≠ b.2)) := by
  have hposPart : 0 < p0.rate →
      List.Chain' (fun a b : ℚ × ℚ => a.1 < b.1 ∧ a.2 < b.2)
        (SILA p0 below above) := by
    intro hpos
    have hdown := chain_integrate_desc_pos below p0 0 hpos hb
    have hup := chain_integrate_asc_pos above p0 0 hpos ha
    have hrev : List.Chain' (fun a b : ℚ × ℚ => a.1 < b.1 ∧ a.2 < b.2)
        (((0, p0.val) :: (integrateFrom 0 p0 below).1).reverse) := by
      rw [List.chain'_reverse]
      exact hdown
    rw [List.reverse_cons] at hrev
    rcases List.chain'_append.mp hrev with ⟨h1, _, h3⟩
    unfold SILA
    refine List.Chain'.append h1 hup ?_
    intro x hx y hy
    have hy' : y = (0, p0.val) := by simpa using hy.symm
    subst hy'
    exact h3 x hx (0, p0.val) (by simp)
  have hnegPart : p0.rate < 0 →
      List.Chain' (fun a b : ℚ × ℚ => b.1 < a.1 ∧ a.2 < b.2)
        (SILA p0 below above) := by
    intro hneg
    have hdown := chain_integrate_desc_neg below p0 0 hneg hb
    have hup := chain_integrate_asc_neg above p0 0 hneg ha
    have hrev : List.Chain' (fun a b : ℚ × ℚ => b.1 < a.1 ∧ a.2 < b.2)
        (((0, p0.val) :: (integrateFrom 0 p0 below).1).reverse) := by
      rw [List.chain'_reverse]
      exact hdown
    rw [List.reverse_cons] at hrev
    rcases List.chain'_append.mp hrev with ⟨h1, _, h3⟩
    unfold SILA
    refine List.Chain'.append h1 hup ?_
    intro x hx y hy
    have hy' : y = (0, p0.val) := by simpa using hy.symm
    subst hy'
    exact h3 x hx (0, p0.val) (by simp)
  refine ⟨hposPart, hnegPart, ?_⟩
  intro hne
  rcases hne.lt_or_lt with hneg | hpos
  · have hch := hnegPart hneg
    have hpw : (SILA p0 below above).Pairwise
        (fun a b : ℚ × ℚ => b.1 < a.1 ∧ a.2 < b.2) := by
      haveI : IsTrans (ℚ × ℚ) (fun a b : ℚ × ℚ => b.1 < a.1 ∧ a.2 < b.2) :=
        ⟨fun a b c h1 h2 => ⟨lt_trans h2.1 h1.1, lt_trans h1.2 h2.2⟩⟩
      exact List.chain'_iff_pairwise.mp hch
    exact hpw.imp (fun h => ne_of_lt h.2)
  · have hch := hposPart hpos
    have hpw : (SILA p0 below above).Pairwise
        (fun a b : ℚ × ℚ => a.1 < b.1 ∧ a.2 < b.2) := by
      haveI : IsTrans (ℚ × ℚ) (fun a b : ℚ × ℚ => a.1 < b.1 ∧ a.2 < b.2) :=
        ⟨fun a b c h1 h2 => ⟨lt_trans h1.1 h2.1, lt_trans h1.2 h2.2⟩⟩
      exact List.chain'_iff_pairwise.mp hch
    exact hpw.imp (fun h => ne_of_lt h.2)

/-- Concrete instantiation of the monotonicity theorem on the same
three-point trajectory as the anchoring witness. -/
theorem C2_trajectory_monotonic_witness :
    (0 < (RatePoint.mk 1 1).rate →
      List.Chain' (fun a b : ℚ × ℚ => a.1 < b.1 ∧ a.2 < b.2)
        (SILA ⟨1, 1⟩ [⟨0, 1⟩] [⟨2, 1⟩])) ∧
    ((RatePoint.mk 1 1).rate < 0 →
      List.Chain' (fun a b : ℚ × ℚ => b.1 < a.1 ∧ a.2 < b.2)
        (SILA ⟨1, 1⟩ [⟨0, 1⟩] [⟨2, 1⟩])) ∧
    ((RatePoint.mk 1 1).rate ≠ 0 →
      (SILA ⟨1, 1⟩ [⟨0, 1⟩] [⟨2, 1⟩]).Pairwise (fun a b => a.2 ≠ b.2)) :=
  C2_trajectory_monotonic ⟨1, 1⟩ [⟨0, 1⟩] [⟨2, 1⟩]
    (List.Chain.cons (by norm_num) List.Chain.nil)
    (List.Chain.cons (by norm_num) List.Chain.nil)

end TauAsym

namespace TauAsym

/-! ## Discrete rate sampling (SILA, first phase)

Modelled from the spec: the SILA source is not part of the repository;
the spec prescribes that every consecutive same-subject observation
pair (ordered by age) yields one (midpoint value, annualised rate)
sample, pooled across subjects. -/

/-- Age ordering of observations. -/
def byAge : Row → Row → Prop := fun a b => a.age ≤ b.age

instance : DecidableRel byAge :=
  fun a b => inferInstanceAs (Decidable (a.age ≤ b.age))

/-- A subject's observations, sorted by age. -/
def sortByAge (l : List Row) : List Row := List.insertionSort byAge l

/-- The rows of the table belonging to one subject. -/
def obsOfSubject (s : Int) (t : List Row) : List Row :=
  t.filter (fun r => decide (r.subid = s))

/-- The distinct subject ids of the table. -/
def subjectsOf (t : List Row) : List Int := (t.map Row.subid).dedup

/-- Modelled from the spec: one rate sample per consecutive observation
pair — midpoint value `(value1 + value2)/2` and annualised rate
`(value2 - value1)/(age2 - age1)`. -/
def pairRates : List Row → List (ℚ × ℚ)
  | a :: b :: rest =>
      ((a.val + b.val) / 2, (b.val - a.val) / (b.age - a.age))
        :: pairRates (b :: rest)
  | _ => []

/-- The rate samples contributed by one subject: its observations are
ordered by age and consecutive pairs are sampled. -/
def ratesForSubject (s : Int) (t : List Row) : List (ℚ × ℚ) :=
  pairRates (sortByAge (obsOfSubject s t))

/-- All discrete rate samples of the table, pooled across subjects. -/
def discreteRateSamples (t : List Row) : List (ℚ × ℚ) :=
  (subjectsOf t).flatMap (fun s => ratesForSubject s t)

theorem pairRates_eq_zip (l : List Row) :
    pairRates l = (l.zip l.tail).map (fun ab =>
      ((ab.1.val + ab.2.val) / 2,
       (ab.2.val - ab.1.val) / (ab.2.age - ab.1.age))) := by
  induction l with
  | nil => rfl
  | cons a rest ih =>
      cases rest with
      | nil => rfl
      | cons b r =>
          simp [pairRates, ih]

theorem pairRates_length (l : List Row) :
    (pairRates l).length = l.length - 1 := by
  rw [pairRates_eq_zip, List.length_map, List.length_zip, List.length_tail]
  omega

/-- **C4.** For every subject, its rate samples are exactly one per
consecutive pair of its age-ordered observations, with midpoint value
and annualised rate `(value2 - value1)/(age2 - age1)`; the sample count
is the observation count minus one, the ordering really is the
subject's observations sorted by age (a sorted permutation), and a
subject with exactly one observation contributes no rate sample. -/
theorem C4_consecutive_pair_rate_samples (s : Int) (t : List Row) :
    ratesForSubject s t
      = ((sortByAge (obsOfSubject s t)).zip
          (sortByAge (obsOfSubject s t)).tail).map (fun ab =>
            ((ab.1.val + ab.2.val) / 2,
             (ab.2.val - ab.1.val) / (ab.2.age - ab.1.age))) ∧
    (ratesForSubject s t).length = (obsOfSubject s t).length - 1 ∧
    (sortByAge (obsOfSubject s t)).Sorted byAge ∧
    List.Perm (sortByAge (obsOfSubject s t)) (obsOfSubject s t) ∧
    ((obsOfSubject s t).length = 1 → ratesForSubject s t = []) := by
  have hperm : List.Perm (sortByAge (obsOfSubject s t)) (obsOfSubject s t) :=
    List.perm_insertionSort byAge (obsOfSubject s t)
  have hlen : (sortByAge (obsOfSubject s t)).length
      = (obsOfSubject s t).length := hperm.length_eq
  refine ⟨pairRates_eq_zip _, ?_, ?_, hperm, ?_⟩
  · rw [ratesForSubject, pairRates_length, hlen]
  · haveI : IsTotal Row byAge := ⟨fun a b => le_total a.age b.age⟩
    haveI : IsTrans Row byAge := ⟨fun _ _ _ h1 h2 => le_trans h1 h2⟩
    exact List.sorted_insertionSort byAge (obsOfSubject s t)
  · intro h1
    rcases List.length_eq_one.mp (hlen.trans h1) with ⟨a, ha⟩
    rw [ratesForSubject, ha]
    rfl

end TauAsym

namespace TauAsym

/-! ## The per-subject projector (`SILA_estimate`)

Modelled from the spec: the vendored `SILA_estimate.m` is not part of
the repository sources.  Each observation's value is interpolated
against the canonical trajectory's value axis; subjects with several
observations get a least-squares horizontal-shift alignment (mean
offset), a single observation uses its direct interpolation; values
outside the trajectory's covered value range are flagged as
extrapolated in the output. -/

/-- Piecewise-linear interpolation of time from value against the
trajectory's (time, value) entries, clamped at the covered range's
ends. -/
def interpTime (v : ℚ) : List (ℚ × ℚ) → ℚ
  | [] => 0
  | [x] => x.1
  | x :: y :: rest =>
      if v ≤ x.2 then x.1
      else if v ≤ y.2 then x.1 + (v - x.2) * (y.1 - x.1) / (y.2 - x.2)
      else interpTime v (y :: rest)

/-- Whether a value lies outside the trajectory's covered value range:
no trajectory value at or below it, or none at or above it. -/
def extrapolatedFlag (traj : List (ℚ × ℚ)) (v : ℚ) : Bool :=
  !(traj.any (fun x => decide (x.2 ≤ v)) && traj.any (fun x => decide (v ≤ x.2)))

/-- One output record of the projector (one row of `sila_out`): the
observation, its estimated time from threshold, and the extrapolation
flag. -/
structure Estimate where
  subid : Int
  age : ℚ
  val : ℚ
  estdtt0 : ℚ
  extrapolated : Bool
  deriving Repr, DecidableEq

/-- Build one output record for an observation. -/
def mkEstimate (traj : List (ℚ × ℚ)) (o : Row) (time : ℚ) : Estimate :=
  ⟨o.subid, o.age, o.val, time, extrapolatedFlag traj o.val⟩

/-- Modelled from the spec: the projector's per-subject step.  With a
single observation the direct interpolation is the estimate (no offset
fit); with several, the least-squares horizontal shift (the mean of the
per-observation differences between interpolated time and age) aligns
the subject, and each estimate is the observation's age plus that
shift. -/
def subjectEstimates (traj : List (ℚ × ℚ)) : List Row → List Estimate
  | [] => []
  | [o] => [mkEstimate traj o (interpTime o.val traj)]
  | o1 :: o2 :: rest =>
      let obs := o1 :: o2 :: rest
      let offset :=
        ((obs.map (fun o => interpTime o.val traj - o.age)).sum)
          / (obs.length : ℚ)
      obs.map (fun o => mkEstimate traj o (o.age + offset))

/-- The projector over the whole table, subject by subject
(`sila_out = SILA_estimate(tsila, t.age, t.val, t.subid)`). -/
def SILA_estimate (traj : List (ℚ × ℚ)) (t : List Row) : List Estimate :=
  (subjectsOf t).flatMap
    (fun s => subjectEstimates traj (sortByAge (obsOfSubject s t)))

theorem subjectEstimates_extrapolated (traj : List (ℚ × ℚ))
    (obs : List Row) :
    ∀ e ∈ subjectEstimates traj obs,
      e.extrapolated = extrapolatedFlag traj e.val := by
  intro e he
  match obs with
  | [] => simp [subjectEstimates] at he
  | [o] =>
      simp only [subjectEstimates, List.mem_singleton] at he
      subst he
      rfl
  | o1 :: o2 :: rest =>
      simp only [subjectEstimates, List.mem_map] at he
      rcases he with ⟨o, _, rfl⟩
      rfl

/-- **C5.** Every projector output record whose observation value lies
outside the canonical trajectory's covered value range (strictly above
every trajectory value, or strictly below every trajectory value)
carries the extrapolated flag; the record is still produced (no
error), flagged rather than silently projected. -/
theorem C5_out_of_range_flagged (traj : List (ℚ × ℚ)) (t : List Row) :
    ∀ e ∈ SILA_estimate traj t,
      ((∀ x ∈ traj, x.2 < e.val) ∨ (∀ x ∈ traj, e.val < x.2)) →
      e.extrapolated = true := by
  intro e he hrange
  rcases List.mem_flatMap.mp he with ⟨s, _, hes⟩
  rw [subjectEstimates_extrapolated traj _ e hes]
  unfold extrapolatedFlag
  rcases hrange with habove | hbelow
  · have h2 : traj.any (fun x => decide (e.val ≤ x.2)) = false := by
      rw [List.any_eq_false]
      intro x hx
      simpa using not_le.mpr (habove x hx)
    rw [h2, Bool.and_false, Bool.not_false]
  · have h1 : traj.any (fun x => decide (x.2 ≤ e.val)) = false := by
      rw [List.any_eq_false]
      intro x hx
      simpa using not_le.mpr (hbelow x hx)
    rw [h1, Bool.false_and, Bool.not_false]

/-- Concrete instantiation of the out-of-range flagging theorem: a
trajectory covering values 1 to 2, one observation with value 5. -/
theorem C5_out_of_range_flagged_witness :
    (Estimate.mk 1 70 5 1 true).extrapolated = true :=
  C5_out_of_range_flagged [(0, 1), (1, 2)] [⟨1, 70, 5⟩]
    (Estimate.mk 1 70 5 1 true) (by decide) (Or.inl (by decide))

/-- **C6.** For a subject with exactly one observation, the projector's
estimate is the direct interpolation of the canonical trajectory at
that observation's value — no offset fit is applied and a record is
produced (no error). -/
theorem C6_single_observation_direct_interpolation
    (traj : List (ℚ × ℚ)) (s : Int) (t : List Row) (o : Row)
    (h : obsOfSubject s t = [o]) :
    subjectEstimates traj (sortByAge (obsOfSubject s t))
      = [⟨o.subid, o.age, o.val, interpTime o.val traj,
          extrapolatedFlag traj o.val⟩] := by
  rw [h]
  rfl

/-- Concrete instantiation of the single-observation theorem. -/
theorem C6_single_observation_witness :
    subjectEstimates [((0 : ℚ), (1 : ℚ)), (1, 2)]
        (sortByAge (obsOfSubject 1 [⟨1, 70, 2⟩]))
      = [⟨1, 70, 2, interpTime 2 [((0 : ℚ), (1 : ℚ)), (1, 2)],
          extrapolatedFlag [((0 : ℚ), (1 : ℚ)), (1, 2)] 2⟩] :=
  C6_single_observation_direct_interpolation
    [((0 : ℚ), (1 : ℚ)), (1, 2)] 1 [⟨1, 70, 2⟩] ⟨1, 70, 2⟩ (by decide)

end TauAsym

namespace TauAsym

/-! ## Laterality categorisation

Modelled from the spec: the categorisation of subjects into asymmetry
groups by the signed laterality index is not among the repository
sources available here; the spec prescribes a pure mapping (index,
band) to one of three categories with an inclusive band edge for the
symmetric category. -/

/-- The three asymmetry categories. -/
inductive AsymGroup where
  | leftAsym
  | symmetric
  | rightAsym
  deriving Repr, DecidableEq

/-- Modelled from the spec: an index within the fixed band around zero
(inclusive at both edges) is symmetric; otherwise the sign of the index
decides the asymmetric side. -/
def categorizeLaterality (band idx : ℚ) : AsymGroup :=
  if |idx| ≤ band then AsymGroup.symmetric
  else if 0 < idx then AsymGroup.leftAsym
  else AsymGroup.rightAsym

/-- **C7.** For a nonnegative band, the categorisation is the pure
trichotomy of (index, band): inside the band (inclusively) symmetric,
above it left-asymmetric, below its negation right-asymmetric — and an
index exactly at either band edge is symmetric (inclusive boundary). -/
theorem C7_laterality_pure_trichotomy (band idx : ℚ) (hband : 0 ≤ band) :
    (|idx| ≤ band → categorizeLaterality band idx = AsymGroup.symmetric) ∧
    (band < idx → categorizeLaterality band idx = AsymGroup.leftAsym) ∧
    (idx < -band → categorizeLaterality band idx = AsymGroup.rightAsym) ∧
    categorizeLaterality band band = AsymGroup.symmetric ∧
    categorizeLaterality band (-band) = AsymGroup.symmetric := by
  refine ⟨?_, ?_, ?_, ?_, ?_⟩
  · intro h
    simp [categorizeLaterality, h]
  · intro h
    have h1 : ¬ |idx| ≤ band := fun hc => by
      rw [abs_le] at hc
      linarith [hc.2]
    have h2 : 0 < idx := lt_of_le_of_lt hband h
    simp [categorizeLaterality, h1, h2]
  · intro h
    have h1 : ¬ |idx| ≤ band := fun hc => by
      rw [abs_le] at hc
      linarith [hc.1]
    have h2 : ¬ 0 < idx := by
      intro h2
      linarith
    simp [categorizeLaterality, h1, h2]
  · have h : |band| ≤ band := by
      rw [abs_of_nonneg hband]
    simp [categorizeLaterality, h]
  · have h : |band| ≤ band := by
      rw [abs_of_nonneg hband]
    simp [categorizeLaterality, abs_neg, h]

/-- Concrete instantiation of the laterality theorem at band 1/10,
index exactly at the band edge. -/
theorem C7_laterality_witness :
    (|(1 : ℚ) / 10| ≤ 1 / 10 →
      categorizeLaterality (1 / 10) (1 / 10) = AsymGroup.symmetric) ∧
    ((1 : ℚ) / 10 < 1 / 10 →
      categorizeLaterality (1 / 10) (1 / 10) = AsymGroup.leftAsym) ∧
    ((1 : ℚ) / 10 < -(1 / 10) →
      categorizeLaterality (1 / 10) (1 / 10) = AsymGroup.rightAsym) ∧
    categorizeLaterality ((1 : ℚ) / 10) (1 / 10) = AsymGroup.symmetric ∧
    categorizeLaterality ((1 : ℚ) / 10) (-(1 / 10)) = AsymGroup.symmetric :=
  C7_laterality_pure_trichotomy (1 / 10) (1 / 10) (by norm_num)

end TauAsym

namespace TauAsym

/-- Concrete instantiation of the loader theorem on a one-row table. -/
theorem C8_loader_witness :
    loadTable [RawRow.mk (some 7) (some 70) (some 1) []]
      = [RawRow.mk (some 7) (some 70) (some 1) []].filterMap loadRow ∧
    (∀ r ∈ [RawRow.mk (some 7) (some 70) (some 1) []], ∀ s a v,
      r.sid = some s → r.age = some a → r.roi = some v →
      s ∉ denylist →
      (⟨s, a, v⟩ : Row) ∈ loadTable [RawRow.mk (some 7) (some 70) (some 1) []]) ∧
    (∀ x ∈ loadTable [RawRow.mk (some 7) (some 70) (some 1) []],
      ∃ r ∈ [RawRow.mk (some 7) (some 70) (some 1) []],
        r.sid = some x.subid ∧ r.age = some x.age ∧ r.roi = some x.val ∧
        x.subid ∉ denylist) :=
  C8_loader_keeps_exactly_complete_nondenylisted_rows
    [RawRow.mk (some 7) (some 70) (some 1) []]

/-- Concrete instantiation of the rate-sampling theorem: one subject
with two observations. -/
theorem C4_rate_sampling_witness :
    ratesForSubject 1 [⟨1, 70, 1⟩, ⟨1, 71, 2⟩]
      = ((sortByAge (obsOfSubject 1 [⟨1, 70, 1⟩, ⟨1, 71, 2⟩])).zip
          (sortByAge (obsOfSubject 1 [⟨1, 70, 1⟩, ⟨1, 71, 2⟩])).tail).map
            (fun ab => ((ab.1.val + ab.2.val) / 2,
              (ab.2.val - ab.1.val) / (ab.2.age - ab.1.age))) ∧
    (ratesForSubject 1 [⟨1, 70, 1⟩, ⟨1, 71, 2⟩]).length
      = (obsOfSubject 1 [⟨1, 70, 1⟩, ⟨1, 71, 2⟩]).length - 1 ∧
    (sortByAge (obsOfSubject 1 [⟨1, 70, 1⟩, ⟨1, 71, 2⟩])).Sorted byAge ∧
    List.Perm (sortByAge (obsOfSubject 1 [⟨1, 70, 1⟩, ⟨1, 71, 2⟩]))
      (obsOfSubject 1 [⟨1, 70, 1⟩, ⟨1, 71, 2⟩]) ∧
    ((obsOfSubject 1 [⟨1, 70, 1⟩, ⟨1, 71, 2⟩]).length = 1 →
      ratesForSubject 1 [⟨1, 70, 1⟩, ⟨1, 71, 2⟩] = []) :=
  C4_consecutive_pair_rate_samples 1 [⟨1, 70, 1⟩, ⟨1, 71, 2⟩]

end TauAsym
